import Mathlib

/-!
Verification of the table/cell model of `dolphin_doc_lib/base/table.py`.

The Python module defines `Cell` and `Table` (both extending the external
rectangle primitive `Rect`), with incremental cell insertion (`add_cell`),
an occupancy board rebuilt on every insertion (`_fill_board`), coverage
testing (`ready_to_move`) and directional navigation (`move`).

The rectangle primitive (`rect.py`) and the paragraph type (`text.py`) are
external collaborators not present in the sources; they are modelled from
the specification.  Everything else is a direct translation of `table.py`:
Python mutation is turned into explicit state passing, exceptions into
`Except`, and the stable `list.sort` into a stable insertion sort (stable
ascending sorts of a list agree, so this is extensionally the Python sort).
Object identity (`is`) is modelled by numeric identity fields.
-/

/-- Modelled from the spec: the external geometry primitive of `rect.py` is
"an axis-aligned integer rectangle with left/top/width/height, derived
right/bottom/area, and containment predicates". -/
structure Rect where
  left : Int
  top : Int
  width : Int
  height : Int
deriving DecidableEq, Repr

/-- Modelled from the spec: derived `right = left + width - 1`. -/
def Rect.right (r : Rect) : Int := r.left + r.width - 1

/-- Modelled from the spec: derived `bottom = top + height - 1`. -/
def Rect.bottom (r : Rect) : Int := r.top + r.height - 1

/-- Modelled from the spec: derived `area = width × height`. -/
def Rect.area (r : Rect) : Int := r.width * r.height

/-- Modelled from the spec: containment of a whole rectangle, "the cell's
rectangle must lie entirely within the table's rectangle (inclusive of the
table boundary)". -/
def Rect.containsB (outer inner : Rect) : Bool :=
  decide (outer.left ≤ inner.left) && decide (outer.top ≤ inner.top) &&
  decide (inner.right ≤ outer.right) && decide (inner.bottom ≤ outer.bottom)

/-- Modelled from the spec: point containment predicate of the geometry
primitive (point (x, y) inside the rectangle, boundary included). -/
def Rect.containsPointB (r : Rect) (x y : Int) : Bool :=
  decide (r.left ≤ x) && decide (x ≤ r.right) &&
  decide (r.top ≤ y) && decide (y ≤ r.bottom)

/-- Modelled from the spec: geometry fields are "integers ≥ 0". -/
def Rect.WF (r : Rect) : Prop :=
  0 ≤ r.left ∧ 0 ≤ r.top ∧ 0 ≤ r.width ∧ 0 ≤ r.height

instance (r : Rect) : Decidable r.WF := by
  unfold Rect.WF; infer_instance

/-- Modelled from the spec: a paragraph is an opaque payload that "may be
attached to at most one Cell ever"; `parent` is its owning-cell reference
(the id of the owning cell), `pid` models Python object identity. -/
structure TextParagraph where
  pid : Nat
  parent : Option Nat
deriving DecidableEq, Repr

/-- `_UNOCCUPIED_CELL = -1` from `table.py`. -/
def _UNOCCUPIED_CELL : Int := -1

/-- `Direction` enum from `table.py`. -/
inductive Direction where
  | UP
  | DOWN
  | LEFT
  | RIGHT
deriving DecidableEq, Repr

/-- A `Cell` of `table.py`: a rectangle plus an optional owning table
(`parent`, the owning table's id) and an ordered paragraph list.  The `id`
field models Python object identity. -/
structure Cell where
  id : Nat
  rect : Rect
  parent : Option Nat
  paragraphs : List TextParagraph
deriving DecidableEq, Repr

/-- Errors raised by `table.py` (`ValueError`s, the `assert` in `move`, and
a potential `IndexError` from the list lookup in `move`). -/
inductive TableError where
  | cellNotInside
  | pointOccupied (row col : Int)
  | paragraphHasParent
  | cellParentNotThisTable
  | assertionFailed
  | indexError
deriving DecidableEq, Repr

/-- `Cell.append_paragraph` from `table.py`: refuse a paragraph that already
has a parent (Python truthiness of an object is `isSome`), otherwise set the
paragraph's parent to this cell, append it, and return the cell (`self`). -/
def Cell.append_paragraph (c : Cell) (p : TextParagraph) :
    Except TableError (Cell × TextParagraph) :=
  if p.parent.isSome then
    .error .paragraphHasParent
  else
    let p' : TextParagraph := { p with parent := some c.id }
    .ok ({ c with paragraphs := c.paragraphs ++ [p'] }, p')

/-- The occupancy board `_board`, as a function from (row, col) to the
stored integer; `table.py` reads and writes it as `_board[row][col]`. -/
abbrev Board := Int → Int → Int

/-- A single assignment `_board[row][col] = v`. -/
def boardSet (b : Board) (row col v : Int) : Board :=
  fun r c => if r = row ∧ c = col then v else b r c

/-- The integer list `[lo, lo+1, ..., hi]`, i.e. Python `range(lo, hi+1)`. -/
def intRange (lo hi : Int) : List Int :=
  (List.range (hi + 1 - lo).toNat).map (fun i : Nat => lo + (i : Int))

/-- The (row, col) pairs visited by the nested loops
`for row in range(top, bottom+1): for col in range(left, right+1)`
of `table.py`, in row-major order. -/
def cellCoords (r : Rect) : List (Int × Int) :=
  (intRange r.top r.bottom).flatMap
    (fun row => (intRange r.left r.right).map (fun col => (row, col)))

/-- The coordinate grid condition of the loop body: the cell covers
(row, col). -/
def coversB (r : Rect) (row col : Int) : Bool :=
  decide (r.top ≤ row) && decide (row ≤ r.bottom) &&
  decide (r.left ≤ col) && decide (col ≤ r.right)

/-- The board-write loop of `Table._fill_board`:
`_board[row][col] = idx` over the cell's covered coordinates. -/
def fillBoard (b : Board) (r : Rect) (idx : Int) : Board :=
  (cellCoords r).foldl (fun b rc => boardSet b rc.1 rc.2 idx) b

/-- The rebuild loop of `Table.add_cell`:
`for i, _cell in enumerate(self._cells): self._fill_board(_cell, i)`,
threading the board and `_occupied_area` (which `_fill_board` increments by
`cell.area()`). -/
def fillCells (b : Board) (area : Int) (idx : Nat) : List Cell → Board × Int
  | [] => (b, area)
  | c :: rest =>
      fillCells (fillBoard b c.rect (idx : Int)) (area + c.rect.area) (idx + 1) rest

/-- The sort key comparison of `self._cells.sort(key=lambda cell:
(cell.top(), cell.left()))`: lexicographic (top, left) order. -/
def cellLE (a b : Cell) : Prop :=
  a.rect.top < b.rect.top ∨ (a.rect.top = b.rect.top ∧ a.rect.left ≤ b.rect.left)

instance (a b : Cell) : Decidable (cellLE a b) := by
  unfold cellLE; infer_instance

instance : IsTotal Cell cellLE := by
  constructor; intro a b; unfold cellLE; omega

instance : IsTrans Cell cellLE := by
  constructor; intro a b c; unfold cellLE; omega

/-- A `Table` of `table.py`: its rectangle (constructed as
`Rect(0, 0, col_num, row_num)`), the sorted cell list `_cells`, the
occupancy board `_board` and the running `_occupied_area`.  The `tid`
field models Python object identity (used by `cell.parent is not self`). -/
structure Table where
  tid : Nat
  rect : Rect
  cells : List Cell
  board : Board
  occupiedArea : Int

/-- `Table.__init__(row_num, col_num)`: geometry (0, 0, col_num, row_num),
no cells, zero occupied area, all-unoccupied board. -/
def Table.init (tid : Nat) (row_num col_num : Int) : Table :=
  { tid := tid
    rect := ⟨0, 0, col_num, row_num⟩
    cells := []
    board := fun _ _ => _UNOCCUPIED_CELL
    occupiedArea := 0 }

/-- `Table.add_cell` from `table.py`.  Errors carry the table and cell
state at the moment the exception propagates (Python raises before any
mutation).  On success the cell's parent is set, the cell list is appended
to and stably re-sorted by (top, left), and the board and occupied area are
rebuilt from scratch over the sorted list (the board is not cleared
first). -/
def Table.add_cell (t : Table) (cell : Cell) :
    Except (TableError × Table × Cell) (Table × Cell) :=
  if !(t.rect.containsB cell.rect) then
    .error (.cellNotInside, t, cell)
  else
    match (cellCoords cell.rect).find?
        (fun rc => t.board rc.1 rc.2 != _UNOCCUPIED_CELL) with
    | some (row, col) => .error (.pointOccupied row col, t, cell)
    | none =>
        let cell' : Cell := { cell with parent := some t.tid }
        let sorted := List.insertionSort cellLE (t.cells ++ [cell'])
        let ba := fillCells t.board 0 0 sorted
        .ok ({ t with cells := sorted, board := ba.1, occupiedArea := ba.2 }, cell')

/-- `Table.ready_to_move`: `self._occupied_area == self.area()`. -/
def Table.ready_to_move (t : Table) : Bool :=
  decide (t.occupiedArea = t.rect.area)

/-- Python list indexing `l[i]` with an `int` index: non-negative indices
index from the front, negative indices from the back, out-of-range raises
(`none`). -/
def pyGet? (l : List Cell) (i : Int) : Option Cell :=
  if 0 ≤ i then l.get? i.toNat
  else if 0 ≤ (l.length : Int) + i then l.get? ((l.length : Int) + i).toNat
  else none

/-- The probe coordinate (x, y) computed by `Table.move` from the queried
cell's geometry and the direction. -/
def probeOf (c : Cell) (d : Direction) : Int × Int :=
  match d with
  | .UP => (c.rect.left, c.rect.top - 1)
  | .DOWN => (c.rect.left, c.rect.bottom + 1)
  | .LEFT => (c.rect.left - 1, c.rect.top)
  | .RIGHT => (c.rect.right + 1, c.rect.top)

/-- `Table.move` from `table.py`: assert `ready_to_move()`, check
`cell.parent is not self`, compute the probe coordinate, and if it lies in
the table return `self._cells[self._board[y][x]]` (Python list indexing),
else `None`. -/
def Table.move (t : Table) (cell : Cell) (d : Direction) :
    Except TableError (Option Cell) :=
  if !t.ready_to_move then
    .error .assertionFailed
  else if cell.parent ≠ some t.tid then
    .error .cellParentNotThisTable
  else
    let xy := probeOf cell d
    if t.rect.containsPointB xy.1 xy.2 then
      match pyGet? t.cells (t.board xy.2 xy.1) with
      | some c => .ok (some c)
      | none => .error .indexError
    else
      .ok none

/-- A sequence of `add_cell` calls, `none` as soon as one raises. -/
def addCells (t : Table) : List Cell → Option Table
  | [] => some t
  | c :: rest =>
      match t.add_cell c with
      | .ok (t', _) => addCells t' rest
      | .error _ => none

/-- (row, col) is one of the table's grid coordinates. -/
def inGrid (t : Table) (row col : Int) : Bool :=
  t.rect.containsPointB col row

/-- The board registration invariant: at every grid coordinate, every cell
covering it is registered there by its index in `cells`, and coordinates
covered by no cell hold the unoccupied marker. -/
def BoardCovered (t : Table) : Prop :=
  ∀ row col, inGrid t row col = true →
    (∀ i, (h : i < t.cells.length) →
      coversB (t.cells.get ⟨i, h⟩).rect row col = true →
      t.board row col = (i : Int)) ∧
    ((∀ i, (h : i < t.cells.length) →
      coversB (t.cells.get ⟨i, h⟩).rect row col = false) →
      t.board row col = _UNOCCUPIED_CELL)

/-- Number of grid coordinates covered by some inserted cell. -/
def coveredCount (t : Table) : Nat :=
  (cellCoords t.rect).countP
    (fun rc => t.cells.any (fun c => coversB c.rect rc.1 rc.2))

/-- Internal invariant of a reachable table: sorted cells, all cells inside
the table, faithful board registration, and `_occupied_area` equal to the
sum of the inserted areas. -/
def TableInv (t : Table) : Prop :=
  List.Pairwise cellLE t.cells ∧
  (∀ c ∈ t.cells, t.rect.containsB c.rect = true) ∧
  BoardCovered t ∧
  t.occupiedArea = ((t.cells.map (fun c => c.rect.area)).sum)

/-- Tables reachable by a sequence of successful insertions of well-formed
cells. -/
def ReachWF (t : Table) : Prop :=
  ∃ tid rn cn cs, (∀ c ∈ cs, c.rect.WF) ∧
    addCells (Table.init tid rn cn) cs = some t

/-! ### Range and coordinate lemmas -/

theorem mem_intRange {x lo hi : Int} :
    x ∈ intRange lo hi ↔ lo ≤ x ∧ x ≤ hi := by
  unfold intRange
  simp only [List.mem_map, List.mem_range]
  constructor
  · rintro ⟨i, hlt, rfl⟩
    omega
  · rintro ⟨h1, h2⟩
    refine ⟨(x - lo).toNat, by omega, by omega⟩

theorem length_intRange (lo hi : Int) :
    (intRange lo hi).length = (hi + 1 - lo).toNat := by
  unfold intRange
  rw [List.length_map, List.length_range]

theorem mem_cellCoords {r : Rect} {row col : Int} :
    (row, col) ∈ cellCoords r ↔ coversB r row col = true := by
  unfold cellCoords coversB
  simp only [List.mem_flatMap, List.mem_map, Prod.mk.injEq]
  constructor
  · rintro ⟨row', hrow, col', hcol, rfl, rfl⟩
    have h1 := mem_intRange.mp hrow
    have h2 := mem_intRange.mp hcol
    simp only [Bool.and_eq_true, decide_eq_true_eq]
    omega
  · intro h
    simp only [Bool.and_eq_true, decide_eq_true_eq] at h
    exact ⟨row, mem_intRange.mpr ⟨h.1.1.1, h.1.1.2⟩,
      col, mem_intRange.mpr ⟨h.1.2, h.2⟩, rfl, rfl⟩

theorem foldl_boardSet (v : Int) :
    ∀ (l : List (Int × Int)) (b : Board) (row col : Int),
      (l.foldl (fun b rc => boardSet b rc.1 rc.2 v) b) row col =
        if (row, col) ∈ l then v else b row col := by
  intro l
  induction l with
  | nil => intro b row col; simp
  | cons a l ih =>
      obtain ⟨a1, a2⟩ := a
      intro b row col
      simp only [List.foldl_cons, ih, List.mem_cons, boardSet, Prod.mk.injEq]
      by_cases hmem : (row, col) ∈ l
      · simp [hmem]
      · by_cases heq : row = a1 ∧ col = a2
        · simp [hmem, heq]
        · simp [hmem, heq, Prod.mk.injEq]

theorem fillBoard_eq (b : Board) (r : Rect) (idx : Int) (row col : Int) :
    fillBoard b r idx row col =
      if coversB r row col = true then idx else b row col := by
  unfold fillBoard
  rw [foldl_boardSet]
  by_cases h : coversB r row col = true
  · simp [h, mem_cellCoords.mpr h]
  · have : ¬ (row, col) ∈ cellCoords r := fun hc => h (mem_cellCoords.mp hc)
    simp [h, this]

/-! ### Rebuild-loop lemmas -/

theorem fillCells_area :
    ∀ (cs : List Cell) (b : Board) (a : Int) (i : Nat),
      (fillCells b a i cs).2 = a + ((cs.map (fun c => c.rect.area)).sum) := by
  intro cs
  induction cs with
  | nil => intro b a i; simp [fillCells]
  | cons c rest ih =>
      intro b a i
      simp only [fillCells, ih, List.map_cons, List.sum_cons]
      ring

theorem fillCells_not_covered {row col : Int} :
    ∀ (cs : List Cell) (b : Board) (a : Int) (i : Nat),
      (∀ c ∈ cs, coversB c.rect row col = false) →
      (fillCells b a i cs).1 row col = b row col := by
  intro cs
  induction cs with
  | nil => intro b a i _; simp [fillCells]
  | cons c rest ih =>
      intro b a i h
      simp only [fillCells]
      rw [ih _ _ _ (fun c hc => h c (List.mem_cons_of_mem _ hc))]
      rw [fillBoard_eq]
      simp [h c (List.mem_cons_self c rest)]

theorem fillCells_covered {row col : Int} :
    ∀ (cs : List Cell) (b : Board) (a : Int) (i : Nat) (k : Nat)
      (hk : k < cs.length),
      coversB (cs.get ⟨k, hk⟩).rect row col = true →
      (∀ j (hj : j < cs.length), j ≠ k →
        coversB (cs.get ⟨j, hj⟩).rect row col = false) →
      (fillCells b a i cs).1 row col = ((i + k : Nat) : Int) := by
  intro cs
  induction cs with
  | nil => intro b a i k hk _ _; simp at hk
  | cons c rest ih =>
      intro b a i k hk hcov hothers
      match k with
      | 0 =>
          simp only [List.get] at hcov
          have hrest : ∀ c' ∈ rest, coversB c'.rect row col = false := by
            intro c' hc'
            obtain ⟨j, hj, rfl⟩ := List.mem_iff_get.mp hc'
            exact hothers (j + 1) (by simp [Nat.succ_lt_succ j.isLt]) (by omega)
          simp only [fillCells]
          rw [fillCells_not_covered _ _ _ _ hrest, fillBoard_eq]
          simp [hcov]
      | k' + 1 =>
          simp only [List.get] at hcov
          have : (fillCells (fillBoard b c.rect (i : Int)) (a + c.rect.area)
              (i + 1) rest).1 row col = ((i + 1 + k' : Nat) : Int) := by
            apply ih _ _ _ k' (by simpa using Nat.lt_of_succ_lt_succ hk) hcov
            intro j hj hne
            exact hothers (j + 1) (by simpa using Nat.succ_lt_succ hj) (by omega)
          simp only [fillCells]
          rw [this]
          congr 1
          omega

/-! ### Range decomposition and counting -/

theorem intRange_append (lo mid hi : Int) (h1 : lo ≤ mid) (h2 : mid ≤ hi + 1) :
    intRange lo hi = intRange lo (mid - 1) ++ intRange mid hi := by
  unfold intRange
  have e1 : mid - 1 + 1 - lo = mid - lo := by omega
  rw [e1]
  have hsum : (hi + 1 - lo).toNat = (mid - lo).toNat + (hi + 1 - mid).toNat := by
    omega
  rw [hsum, List.range_add, List.map_append, List.map_map]
  congr 1
  apply List.map_congr_left
  intro i _
  simp only [Function.comp_apply]
  omega

theorem filter_intRange_interval (a b lo hi : Int)
    (h1 : lo ≤ a) (h2 : b ≤ hi) (h3 : a ≤ b + 1) :
    (intRange lo hi).filter (fun x => decide (a ≤ x) && decide (x ≤ b)) =
      intRange a b := by
  rw [intRange_append lo a hi h1 (by omega),
    intRange_append a (b + 1) hi (by omega) (by omega)]
  have hb : b + 1 - 1 = b := by omega
  rw [hb]
  rw [List.filter_append, List.filter_append]
  have e1 : (intRange lo (a - 1)).filter
      (fun x => decide (a ≤ x) && decide (x ≤ b)) = [] := by
    rw [List.filter_eq_nil_iff]
    intro x hx
    have := mem_intRange.mp hx
    simp only [Bool.and_eq_true, decide_eq_true_eq]
    omega
  have e2 : (intRange a b).filter
      (fun x => decide (a ≤ x) && decide (x ≤ b)) = intRange a b := by
    rw [List.filter_eq_self]
    intro x hx
    have := mem_intRange.mp hx
    simp only [Bool.and_eq_true, decide_eq_true_eq]
    omega
  have e3 : (intRange (b + 1) hi).filter
      (fun x => decide (a ≤ x) && decide (x ≤ b)) = [] := by
    rw [List.filter_eq_nil_iff]
    intro x hx
    have := mem_intRange.mp hx
    simp only [Bool.and_eq_true, decide_eq_true_eq]
    omega
  rw [e1, e2, e3, List.nil_append, List.append_nil]

theorem countP_intRange_interval (a b lo hi : Int)
    (h1 : lo ≤ a) (h2 : b ≤ hi) (h3 : a ≤ b + 1) :
    (intRange lo hi).countP (fun x => decide (a ≤ x) && decide (x ≤ b)) =
      (b + 1 - a).toNat := by
  rw [List.countP_eq_length_filter, filter_intRange_interval a b lo hi h1 h2 h3,
    length_intRange]

theorem countP_or_disjoint (p q : α → Bool) :
    ∀ (l : List α), (∀ x ∈ l, q x = true → p x = false) →
      l.countP (fun x => p x || q x) = l.countP p + l.countP q := by
  intro l
  induction l with
  | nil => intro _; simp
  | cons a l ih =>
      intro h
      rw [List.countP_cons, List.countP_cons, List.countP_cons,
        ih (fun x hx => h x (List.mem_cons_of_mem _ hx))]
      have ha := h a (List.mem_cons_self a l)
      cases hp : p a <;> cases hq : q a <;> simp [hp, hq] at ha ⊢ <;> try omega

theorem countP_flatMap (p : β → Bool) (f : α → List β) :
    ∀ (l : List α), (l.flatMap f).countP p = (l.map (fun a => (f a).countP p)).sum := by
  intro l
  induction l with
  | nil => simp
  | cons a l ih => simp [List.flatMap_cons, List.countP_append, ih]

theorem sum_map_ite (p : α → Bool) (k : Nat) :
    ∀ (l : List α), (l.map (fun x => if p x = true then k else 0)).sum =
      k * l.countP p := by
  intro l
  induction l with
  | nil => simp
  | cons a l ih =>
      rw [List.map_cons, List.sum_cons, ih, List.countP_cons]
      cases h : p a <;> simp [h] <;> ring

theorem countP_coversB_cellCoords (outer : Rect) (r : Rect)
    (hcont : outer.containsB r = true) (hw : 0 ≤ r.width) (hh : 0 ≤ r.height) :
    (cellCoords outer).countP (fun rc => coversB r rc.1 rc.2) = r.area.toNat := by
  unfold cellCoords
  rw [countP_flatMap]
  unfold Rect.containsB at hcont
  simp only [Bool.and_eq_true, decide_eq_true_eq] at hcont
  have hrow : ∀ row : Int,
      ((intRange outer.left outer.right).map (fun col => (row, col))).countP
        (fun rc => coversB r rc.1 rc.2) =
      if (decide (r.top ≤ row) && decide (row ≤ r.bottom)) = true
        then r.width.toNat else 0 := by
    intro row
    rw [List.countP_map]
    by_cases hr : (decide (r.top ≤ row) && decide (row ≤ r.bottom)) = true
    · rw [if_pos hr]
      have : ∀ col ∈ intRange outer.left outer.right,
          ((fun rc => coversB r rc.1 rc.2) ∘ fun col => (row, col)) col =
          (fun x => decide (r.left ≤ x) && decide (x ≤ r.right)) col := by
        intro col _
        simp only [Function.comp_apply, coversB]
        simp only [Bool.and_eq_true] at hr
        rw [hr.1, hr.2]
        simp
      rw [List.countP_congr (by intro x hx; rw [this x hx])]
      rw [countP_intRange_interval r.left r.right outer.left outer.right
        hcont.1.1.1 hcont.1.2 (by unfold Rect.right at hcont ⊢; omega)]
      unfold Rect.right
      congr 1
      omega
    · rw [if_neg hr]
      rw [List.countP_eq_zero]
      intro x _
      simp only [Function.comp_apply, coversB]
      simp only [Bool.and_eq_true, decide_eq_true_eq, not_and] at hr ⊢
      omega
  rw [List.map_congr_left (fun row _ => hrow row)]
  rw [sum_map_ite]
  rw [countP_intRange_interval r.top r.bottom outer.top outer.bottom
    hcont.1.1.2 hcont.2 (by unfold Rect.bottom; omega)]
  unfold Rect.area Rect.bottom
  have h1 : r.top + r.height - 1 + 1 - r.top = r.height := by omega
  rw [h1]
  have e : r.width * r.height = ((r.width.toNat * r.height.toNat : Nat) : Int) := by
    push_cast
    rw [Int.toNat_of_nonneg hw, Int.toNat_of_nonneg hh]
  rw [e, Int.toNat_ofNat]

/-! ### Invariant machinery -/

theorem covers_in_grid {T r : Rect} {row col : Int}
    (hcont : T.containsB r = true) (hcov : coversB r row col = true) :
    T.containsPointB col row = true := by
  unfold Rect.containsB Rect.right Rect.bottom at hcont
  unfold coversB Rect.right Rect.bottom at hcov
  unfold Rect.containsPointB Rect.right Rect.bottom
  simp only [Bool.and_eq_true, decide_eq_true_eq] at hcont hcov ⊢
  omega

theorem indices_two_le_countP (p : Cell → Bool) :
    ∀ (l : List Cell) (i j : Nat) (hi : i < l.length) (hj : j < l.length),
      i ≠ j → p (l.get ⟨i, hi⟩) = true → p (l.get ⟨j, hj⟩) = true →
      2 ≤ l.countP p := by
  intro l
  induction l with
  | nil => intro i j hi; simp at hi
  | cons a l ih =>
      intro i j hi hj hne hpi hpj
      match i, j with
      | 0, 0 => omega
      | 0, j' + 1 =>
          simp only [List.get] at hpi hpj
          rw [List.countP_cons, if_pos hpi]
          have : 0 < l.countP p := by
            rw [List.countP_pos_iff]
            exact ⟨_, l.get_mem _ _, hpj⟩
          omega
      | i' + 1, 0 =>
          simp only [List.get] at hpi hpj
          rw [List.countP_cons, if_pos hpj]
          have : 0 < l.countP p := by
            rw [List.countP_pos_iff]
            exact ⟨_, l.get_mem _ _, hpi⟩
          omega
      | i' + 1, j' + 1 =>
          simp only [List.get] at hpi hpj
          have := ih i' j' (by simpa using Nat.lt_of_succ_lt_succ hi)
            (by simpa using Nat.lt_of_succ_lt_succ hj) (by omega) hpi hpj
          rw [List.countP_cons]
          omega

theorem add_cell_ok {t : Table} {c : Cell} {t' : Table} {c' : Cell}
    (h : t.add_cell c = .ok (t', c')) :
    t.rect.containsB c.rect = true ∧
    (∀ rc ∈ cellCoords c.rect, t.board rc.1 rc.2 = _UNOCCUPIED_CELL) ∧
    c' = { c with parent := some t.tid } ∧
    t'.tid = t.tid ∧ t'.rect = t.rect ∧
    t'.cells = List.insertionSort cellLE (t.cells ++ [c']) ∧
    t'.board = (fillCells t.board 0 0 t'.cells).1 ∧
    t'.occupiedArea = (fillCells t.board 0 0 t'.cells).2 := by
  unfold Table.add_cell at h
  split at h
  · exact absurd h (by simp)
  · rename_i hcont
    split at h
    · exact absurd h (by simp)
    · rename_i hfind
      injection h with h
      injection h with h1 h2
      subst h1
      subst h2
      have hocc : ∀ rc ∈ cellCoords c.rect,
          t.board rc.1 rc.2 = _UNOCCUPIED_CELL := by
        intro rc hrc
        have := List.find?_eq_none.mp hfind rc hrc
        simpa using this
      refine ⟨by simpa using hcont, hocc, rfl, rfl, rfl, rfl, rfl, rfl⟩

theorem add_cell_error {t : Table} {c : Cell} {e : TableError} {t' : Table}
    {c' : Cell} (h : t.add_cell c = .error (e, t', c')) : t' = t ∧ c' = c := by
  unfold Table.add_cell at h
  split at h
  · injection h with h
    injection h with h1 h2
    injection h2 with h2 h3
    exact ⟨h2.symm, h3.symm⟩
  · split at h
    · injection h with h
      injection h with h1 h2
      injection h2 with h2 h3
      exact ⟨h2.symm, h3.symm⟩
    · exact absurd h (by simp)

theorem countP_le_one_of_unique (p : Cell → Bool) :
    ∀ (l : List Cell),
      (∀ i j (hi : i < l.length) (hj : j < l.length),
        p (l.get ⟨i, hi⟩) = true → p (l.get ⟨j, hj⟩) = true → i = j) →
      l.countP p ≤ 1 := by
  intro l
  induction l with
  | nil => intro _; simp
  | cons a l ih =>
      intro h
      rw [List.countP_cons]
      cases hp : p a
      · have := ih (fun i j hi hj hpi hpj => by
          have := h (i + 1) (j + 1) (by simpa using Nat.succ_lt_succ hi)
            (by simpa using Nat.succ_lt_succ hj)
            (by simpa using hpi) (by simpa using hpj)
          omega)
        simpa using this
      · have hl0 : l.countP p = 0 := by
          rw [List.countP_eq_zero]
          intro x hx hpx
          obtain ⟨k, hk, rfl⟩ := List.mem_iff_get.mp hx
          have := h (k + 1) 0 (by simpa using Nat.succ_lt_succ k.isLt)
            (by simp) (by simpa using hpx) (by simpa using hp)
          omega
        simp [hp, hl0]

theorem tableInv_add {t : Table} {c : Cell} {t' : Table} {c' : Cell}
    (hInv : TableInv t) (h : t.add_cell c = .ok (t', c')) : TableInv t' := by
  obtain ⟨hcont, hocc, hc', htid, hrect, hcells, hb', ha'⟩ := add_cell_ok h
  obtain ⟨hsort, hcontain, hbc, harea⟩ := hInv
  have hperm : t'.cells.Perm (t.cells ++ [c']) := by
    rw [hcells]; exact List.perm_insertionSort _ _
  have hmem : ∀ x, x ∈ t'.cells ↔ (x ∈ t.cells ∨ x = c') := by
    intro x; rw [hperm.mem_iff]; simp
  have hc'rect : c'.rect = c.rect := by rw [hc']
  have hcontain' : ∀ x ∈ t'.cells, t'.rect.containsB x.rect = true := by
    intro x hx
    rw [hrect]
    rcases (hmem x).mp hx with hold | rfl
    · exact hcontain x hold
    · rw [hc'rect]; exact hcont
  have hnotcov_old : ∀ row col, coversB c.rect row col = true →
      ∀ x ∈ t.cells, coversB x.rect row col = false := by
    intro row col hcc x hx
    by_contra hcov
    rw [Bool.not_eq_false] at hcov
    obtain ⟨k, hk, rfl⟩ := List.mem_iff_get.mp hx
    have hin : inGrid t row col = true :=
      covers_in_grid (hcontain _ hx) hcov
    have h1 := (hbc row col hin).1 k k.isLt (by simpa using hcov)
    have h2 : t.board row col = -1 := hocc (row, col) (mem_cellCoords.mpr hcc)
    simp only [List.get_eq_getElem] at h1
    omega
  have hUold : ∀ row col (i j : Nat) (hi : i < t.cells.length)
      (hj : j < t.cells.length),
      coversB (t.cells.get ⟨i, hi⟩).rect row col = true →
      coversB (t.cells.get ⟨j, hj⟩).rect row col = true → i = j := by
    intro row col i j hi hj hpi hpj
    have hin : inGrid t row col = true :=
      covers_in_grid (hcontain _ (t.cells.get_mem _ _)) hpi
    have e1 := (hbc row col hin).1 i hi hpi
    have e2 := (hbc row col hin).1 j hj hpj
    omega
  have huniq : ∀ row col (i j : Nat) (hi : i < t'.cells.length)
      (hj : j < t'.cells.length),
      coversB (t'.cells.get ⟨i, hi⟩).rect row col = true →
      coversB (t'.cells.get ⟨j, hj⟩).rect row col = true → i = j := by
    intro row col i j hi hj hci hcj
    by_contra hne
    have h2 : 2 ≤ t'.cells.countP (fun x => coversB x.rect row col) :=
      indices_two_le_countP _ _ i j hi hj hne hci hcj
    rw [hperm.countP_eq, List.countP_append] at h2
    cases hcc : coversB c'.rect row col
    · have hle : t.cells.countP (fun x => coversB x.rect row col) ≤ 1 :=
        countP_le_one_of_unique _ _ (hUold row col)
      simp [List.countP_cons, hcc] at h2
      omega
    · have h0 : t.cells.countP (fun x => coversB x.rect row col) = 0 := by
        rw [List.countP_eq_zero]
        intro x hx
        have := hnotcov_old row col (by rw [hc'rect] at hcc; exact hcc) x hx
        simp [this]
      simp [List.countP_cons, hcc, h0] at h2
  have hbc' : BoardCovered t' := by
    intro row col hin
    have hin0 : inGrid t row col = true := by
      unfold inGrid at hin ⊢
      rw [hrect] at hin
      exact hin
    constructor
    · intro i hi hci
      rw [hb']
      have := fillCells_covered t'.cells t.board 0 0 i hi hci
        (fun j hj hne => by
          by_contra hcov
          rw [Bool.not_eq_false] at hcov
          exact hne (huniq row col j i hj hi hcov hci))
      rw [this]
      simp
    · intro hnone
      rw [hb']
      rw [fillCells_not_covered t'.cells t.board 0 0 (by
        intro x hx
        obtain ⟨k, hk, rfl⟩ := List.mem_iff_get.mp hx
        exact hnone k k.isLt)]
      apply (hbc row col hin0).2
      intro i hi
      by_contra hcov
      rw [Bool.not_eq_false] at hcov
      have hx : t.cells.get ⟨i, hi⟩ ∈ t'.cells :=
        (hmem _).mpr (Or.inl (t.cells.get_mem _ _))
      obtain ⟨n, hn⟩ := List.mem_iff_get.mp hx
      have hfalse : coversB (t.cells.get ⟨i, hi⟩).rect row col = false := by
        rw [← hn]
        exact hnone n.1 n.isLt
      simp only [List.get_eq_getElem] at hcov
      simp [hcov] at hfalse
  have hsort' : List.Pairwise cellLE t'.cells := by
    rw [hcells]
    exact List.sorted_insertionSort cellLE _
  have harea'' : t'.occupiedArea = ((t'.cells.map (fun x => x.rect.area)).sum) := by
    rw [ha', fillCells_area]
    simp
  exact ⟨hsort', hcontain', hbc', harea''⟩

theorem tableInv_init (tid : Nat) (rn cn : Int) : TableInv (Table.init tid rn cn) := by
  refine ⟨List.Pairwise.nil, by simp [Table.init], ?_, by simp [Table.init]⟩
  intro row col _
  constructor
  · intro i hi
    simp [Table.init] at hi
  · intro _
    rfl

theorem tableInv_addCells :
    ∀ (cs : List Cell) (t t' : Table),
      TableInv t → addCells t cs = some t' → TableInv t' := by
  intro cs
  induction cs with
  | nil =>
      intro t t' hInv h
      simp only [addCells] at h
      injection h with h
      rw [← h]
      exact hInv
  | cons c rest ih =>
      intro t t' hInv h
      simp only [addCells] at h
      split at h
      · rename_i t1 c1 heq
        exact ih t1 t' (tableInv_add hInv heq) h
      · exact absurd h (by simp)

/-- The invariant extended with well-formed geometry and the counting law
relating `_occupied_area` to the number of covered grid coordinates. -/
def TableInvC (t : Table) : Prop :=
  TableInv t ∧ (∀ c ∈ t.cells, c.rect.WF) ∧
  t.occupiedArea = (coveredCount t : Int)

theorem tableInvC_add {t : Table} {c : Cell} {t' : Table} {c' : Cell}
    (hInv : TableInvC t) (hcWF : c.rect.WF)
    (h : t.add_cell c = .ok (t', c')) : TableInvC t' := by
  obtain ⟨hI, hWF, hcount⟩ := hInv
  have hI' := tableInv_add hI h
  obtain ⟨hcont, hocc, hc', htid, hrect, hcells, hb', ha'⟩ := add_cell_ok h
  have hperm : t'.cells.Perm (t.cells ++ [c']) := by
    rw [hcells]; exact List.perm_insertionSort _ _
  have hc'rect : c'.rect = c.rect := by rw [hc']
  have hWF' : ∀ x ∈ t'.cells, x.rect.WF := by
    intro x hx
    rcases (by rw [hperm.mem_iff] at hx; simpa using hx :
        x ∈ t.cells ∨ x = c') with hold | rfl
    · exact hWF x hold
    · rw [hc'rect]; exact hcWF
  refine ⟨hI', hWF', ?_⟩
  have hsum : t'.occupiedArea =
      ((t.cells.map (fun x => x.rect.area)).sum) + c.rect.area := by
    have e1 := hI'.2.2.2
    have e2 : ((t'.cells.map (fun x => x.rect.area)).sum) =
        (((t.cells ++ [c']).map (fun x => x.rect.area)).sum) :=
      (hperm.map _).sum_eq
    rw [e1, e2, List.map_append, List.sum_append]
    simp [hc'rect]
  have hnotcov_old : ∀ row col, coversB c.rect row col = true →
      ∀ x ∈ t.cells, coversB x.rect row col = false := by
    intro row col hcc x hx
    by_contra hcov
    rw [Bool.not_eq_false] at hcov
    obtain ⟨k, hk, rfl⟩ := List.mem_iff_get.mp hx
    have hin : inGrid t row col = true :=
      covers_in_grid (hI.2.1 _ hx) hcov
    have h1 := (hI.2.2.1 row col hin).1 k k.isLt (by simpa using hcov)
    have h2 : t.board row col = -1 := hocc (row, col) (mem_cellCoords.mpr hcc)
    simp only [List.get_eq_getElem] at h1
    omega
  have hcc' : coveredCount t' = coveredCount t + c.rect.area.toNat := by
    unfold coveredCount
    rw [hrect]
    have hany : ∀ rc : Int × Int,
        t'.cells.any (fun x => coversB x.rect rc.1 rc.2) =
        (t.cells.any (fun x => coversB x.rect rc.1 rc.2) ||
          coversB c.rect rc.1 rc.2) := by
      intro rc
      rw [Bool.eq_iff_iff]
      simp only [List.any_eq_true, Bool.or_eq_true]
      constructor
      · rintro ⟨x, hx, hxc⟩
        rcases (by rw [hperm.mem_iff] at hx; simpa using hx :
            x ∈ t.cells ∨ x = c') with hold | rfl
        · exact Or.inl ⟨x, hold, hxc⟩
        · rw [hc'rect] at hxc; exact Or.inr hxc
      · rintro (⟨x, hx, hxc⟩ | hc)
        · exact ⟨x, by rw [hperm.mem_iff]; simp [hx], hxc⟩
        · exact ⟨c', by rw [hperm.mem_iff]; simp, by rw [hc'rect]; exact hc⟩
    rw [List.countP_congr (fun rc _ => by rw [hany rc])]
    rw [countP_or_disjoint _ _ _ (fun rc _ hq => by
      rw [List.any_eq_false]
      intro x hx
      simp only [Bool.not_eq_true]
      exact hnotcov_old rc.1 rc.2 hq x hx)]
    congr 1
    exact countP_coversB_cellCoords t.rect c.rect hcont hcWF.2.2.1 hcWF.2.2.2
  rw [hsum, hcc']
  have harea := hI.2.2.2
  have hnn : 0 ≤ c.rect.area :=
    mul_nonneg hcWF.2.2.1 hcWF.2.2.2
  push_cast
  rw [← harea, hcount]
  push_cast
  omega

theorem tableInvC_init (tid : Nat) (rn cn : Int) :
    TableInvC (Table.init tid rn cn) := by
  refine ⟨tableInv_init tid rn cn, by simp [Table.init], ?_⟩
  unfold coveredCount
  simp [Table.init]

theorem tableInvC_addCells :
    ∀ (cs : List Cell) (t t' : Table), TableInvC t →
      (∀ c ∈ cs, c.rect.WF) → addCells t cs = some t' → TableInvC t' := by
  intro cs
  induction cs with
  | nil =>
      intro t t' hInv _ h
      simp only [addCells] at h
      injection h with h
      rw [← h]
      exact hInv
  | cons c rest ih =>
      intro t t' hInv hWF h
      simp only [addCells] at h
      split at h
      · rename_i t1 c1 heq
        exact ih t1 t'
          (tableInvC_add hInv (hWF c (List.mem_cons_self c rest)) heq)
          (fun x hx => hWF x (List.mem_cons_of_mem _ hx)) h
      · exact absurd h (by simp)

theorem reachWF_tableInvC {t : Table} (hR : ReachWF t) : TableInvC t := by
  obtain ⟨tid, rn, cn, cs, hWF, h⟩ := hR
  exact tableInvC_addCells cs _ t (tableInvC_init tid rn cn) hWF h

theorem length_cellCoords (r : Rect) :
    (cellCoords r).length = (r.height.toNat) * (r.width.toNat) := by
  unfold cellCoords
  have : ∀ (l : List Int),
      (l.flatMap (fun row => (intRange r.left r.right).map
        (fun col => (row, col)))).length =
      l.length * (intRange r.left r.right).length := by
    intro l
    induction l with
    | nil => simp
    | cons a l ih =>
        rw [List.flatMap_cons, List.length_append, ih, List.length_map,
          List.length_cons]
        ring
  rw [this, length_intRange, length_intRange]
  unfold Rect.bottom Rect.right
  congr 1 <;> omega

theorem ready_full_coverage {t : Table} (hC : TableInvC t)
    (hready : t.ready_to_move = true) :
    ∀ row col, inGrid t row col = true →
      t.cells.any (fun x => coversB x.rect row col) = true := by
  obtain ⟨hI, hWF, hcount⟩ := hC
  unfold Table.ready_to_move at hready
  rw [decide_eq_true_eq] at hready
  intro row col hin
  have hmemg : (row, col) ∈ cellCoords t.rect := by
    apply mem_cellCoords.mpr
    unfold inGrid Rect.containsPointB at hin
    unfold coversB
    simp only [Bool.and_eq_true, decide_eq_true_eq] at hin ⊢
    omega
  have hwpos : 1 ≤ t.rect.width ∧ 1 ≤ t.rect.height := by
    have := mem_cellCoords.mp hmemg
    unfold coversB Rect.bottom Rect.right at this
    simp only [Bool.and_eq_true, decide_eq_true_eq] at this
    omega
  have hle : coveredCount t ≤ (cellCoords t.rect).length :=
    List.countP_le_length _
  have hlen : (cellCoords t.rect).length =
      (t.rect.height.toNat) * (t.rect.width.toNat) := length_cellCoords t.rect
  have harea : t.rect.area = ((t.rect.width.toNat * t.rect.height.toNat : Nat) : Int) := by
    unfold Rect.area
    push_cast
    rw [Int.toNat_of_nonneg (by omega), Int.toNat_of_nonneg (by omega)]
  have hcc : coveredCount t = (cellCoords t.rect).length := by
    rw [hready, harea] at hcount
    have hcnat : coveredCount t = t.rect.width.toNat * t.rect.height.toNat := by
      exact_mod_cast hcount.symm
    rw [hlen, hcnat, Nat.mul_comm]
  have := List.countP_eq_length.mp hcc
  exact this (row, col) hmemg

theorem ready_board_valid {t : Table} (hC : TableInvC t)
    (hready : t.ready_to_move = true) {x y : Int}
    (hin : t.rect.containsPointB x y = true) :
    ∃ (k : Nat) (hk : k < t.cells.length), t.board y x = (k : Int) ∧
      coversB (t.cells.get ⟨k, hk⟩).rect y x = true := by
  have hing : inGrid t y x = true := hin
  have hany := ready_full_coverage hC hready y x hing
  rw [List.any_eq_true] at hany
  obtain ⟨cell, hmem, hcov⟩ := hany
  obtain ⟨k, hk, rfl⟩ := List.mem_iff_get.mp hmem
  have hb := (hC.1.2.2.1 y x hing).1 k k.isLt (by simpa using hcov)
  exact ⟨k, k.isLt, by simpa using hb, by simpa using hcov⟩

/-! ### Concrete sample data used by the witnesses -/

/-- A 1x2 merged cell occupying the whole first row of a 2x2 table. -/
def mCell : Cell := ⟨1, ⟨0, 0, 2, 1⟩, none, []⟩

/-- A 1x1 cell at row 1, column 0. -/
def aCell : Cell := ⟨2, ⟨0, 1, 1, 1⟩, none, []⟩

/-- A 1x1 cell at row 1, column 1. -/
def bCell : Cell := ⟨3, ⟨1, 1, 1, 1⟩, none, []⟩

def sampleCells : List Cell := [mCell, aCell, bCell]

/-- The fully tiled 2x2 table with a merged first row. -/
def sampleTable : Table :=
  (addCells (Table.init 0 2 2) sampleCells).getD (Table.init 0 0 0)

/-! ### Claims -/

/-- Claim C1: after every sequence of successful `add_cell` calls, the cell
sequence is sorted by (top, left) ascending, and every grid coordinate's
board entry is the index of the unique covering cell in that ordering, or
the unoccupied marker when no inserted cell covers it; registrations exist
exactly at covered coordinates even though the rebuild overwrites the board
without clearing it. -/
theorem claim_C1 (tid : Nat) (rn cn : Int) (cs : List Cell) (t : Table)
    (h : addCells (Table.init tid rn cn) cs = some t) :
    List.Pairwise cellLE t.cells ∧
    BoardCovered t ∧
    (∀ row col, inGrid t row col = true →
      ∀ i (hi : i < t.cells.length), t.board row col = (i : Int) →
        coversB (t.cells.get ⟨i, hi⟩).rect row col = true) := by
  have hI := tableInv_addCells cs _ t (tableInv_init tid rn cn) h
  obtain ⟨hsort, hcont, hbc, _⟩ := hI
  refine ⟨hsort, hbc, ?_⟩
  intro row col hin i hi hb
  by_contra hcov
  rw [Bool.not_eq_true] at hcov
  by_cases hex : ∃ j, ∃ hj : j < t.cells.length,
      coversB (t.cells.get ⟨j, hj⟩).rect row col = true
  · obtain ⟨j, hj, hcj⟩ := hex
    have hbj := (hbc row col hin).1 j hj hcj
    have hij : i = j := by omega
    subst hij
    rw [hcj] at hcov
    exact Bool.true_eq_false.mp hcov
  · have hall : ∀ j, ∀ hj : j < t.cells.length,
        coversB (t.cells.get ⟨j, hj⟩).rect row col = false := by
      intro j hj
      rw [← Bool.not_eq_true]
      exact fun hc => hex ⟨j, hj, hc⟩
    have hU := (hbc row col hin).2 hall
    rw [hb] at hU
    unfold _UNOCCUPIED_CELL at hU
    omega

/-- Witness for C1 at the sample table. -/
theorem claim_C1_witness :
    List.Pairwise cellLE sampleTable.cells ∧
    BoardCovered sampleTable ∧
    (∀ row col, inGrid sampleTable row col = true →
      ∀ i (hi : i < sampleTable.cells.length),
        sampleTable.board row col = (i : Int) →
        coversB (sampleTable.cells.get ⟨i, hi⟩).rect row col = true) :=
  claim_C1 0 2 2 sampleCells sampleTable rfl

/-- An oversized cell used to exercise the containment failure. -/
def bigCell : Cell := ⟨9, ⟨0, 0, 3, 3⟩, none, []⟩

/-- Claim C3: when `add_cell` raises (out-of-bounds or overlap), the table's
board, occupied area and cell sequence are exactly as before the call, and
the cell's parent is not set. -/
theorem claim_C3 (t : Table) (c : Cell) (e : TableError) (t' : Table) (c' : Cell)
    (h : t.add_cell c = .error (e, t', c')) :
    t' = t ∧ c' = c ∧ t'.board = t.board ∧ t'.occupiedArea = t.occupiedArea ∧
    t'.cells = t.cells ∧ c'.parent = c.parent := by
  obtain ⟨h1, h2⟩ := add_cell_error h
  subst h1
  subst h2
  exact ⟨rfl, rfl, rfl, rfl, rfl, rfl⟩

/-- Witness for C3: an out-of-bounds insertion into a 1x1 table. -/
theorem claim_C3_witness :
    Table.init 1 1 1 = Table.init 1 1 1 ∧ bigCell = bigCell ∧
    (Table.init 1 1 1).board = (Table.init 1 1 1).board ∧
    (Table.init 1 1 1).occupiedArea = (Table.init 1 1 1).occupiedArea ∧
    (Table.init 1 1 1).cells = (Table.init 1 1 1).cells ∧
    bigCell.parent = bigCell.parent :=
  claim_C3 (Table.init 1 1 1) bigCell .cellNotInside (Table.init 1 1 1) bigCell rfl

/-- A unit cell used for the C4 counterexample. -/
def c4cell : Cell := ⟨41, ⟨0, 0, 1, 1⟩, none, []⟩

/-- `c4cell` as returned by inserting it into table 1. -/
def c4cell1 : Cell := { c4cell with parent := some 1 }

/-- `c4cell1` as returned by re-inserting it into table 2. -/
def c4cell2 : Cell := { c4cell with parent := some 2 }

/-- The table produced by inserting `c4cell` into a fresh 1x1 table. -/
def c4table1 : Table :=
  ((Table.add_cell (Table.init 1 1 1) c4cell).toOption.map Prod.fst).getD
    (Table.init 0 0 0)

/-- Claim C4 counterexample: `add_cell` performs no ownership check, so a
cell whose parent was set by a first successful insertion is accepted by a
second table and its parent is re-assigned to that different table. -/
theorem claim_C4_counterexample :
    (Table.add_cell (Table.init 1 1 1) c4cell).map (fun p => p.2) = .ok c4cell1 ∧
    c4cell1.parent = some 1 ∧
    (Table.add_cell (Table.init 2 1 1) c4cell1).map (fun p => p.2) = .ok c4cell2 ∧
    c4cell2.parent = some 2 ∧ (some 2 : Option Nat) ≠ some 1 :=
  ⟨rfl, rfl, rfl, rfl, by decide⟩

/-- Claim C4 (amended): every successful `add_cell` sets the inserted
cell's parent to the inserting table, leaving its identity and geometry
unchanged and retaining all previously inserted cells; no other public
operation modifies a parent, but `add_cell` itself performs no ownership
check, so re-inserting an owned cell into a different table re-assigns its
parent. -/
theorem claim_C4 (t : Table) (c : Cell) (t' : Table) (c' : Cell)
    (h : t.add_cell c = .ok (t', c')) :
    c'.parent = some t.tid ∧ c'.id = c.id ∧ c'.rect = c.rect ∧
    (∀ x ∈ t.cells, x ∈ t'.cells) := by
  obtain ⟨_, _, hc', _, _, hcells, _, _⟩ := add_cell_ok h
  subst hc'
  refine ⟨rfl, rfl, rfl, ?_⟩
  intro x hx
  rw [hcells, List.mem_insertionSort]
  exact List.mem_append_left _ hx

/-- Witness for C4 (amended) at the concrete 1x1 insertion. -/
theorem claim_C4_witness :
    c4cell1.parent = some (Table.init 1 1 1).tid ∧ c4cell1.id = c4cell.id ∧
    c4cell1.rect = c4cell.rect ∧
    (∀ x ∈ (Table.init 1 1 1).cells, x ∈ c4table1.cells) :=
  claim_C4 (Table.init 1 1 1) c4cell c4table1 c4cell1 rfl

/-- A cell and two paragraphs used by the C8 witness. -/
def c8cell : Cell := ⟨8, ⟨0, 0, 1, 1⟩, none, []⟩

def pFree : TextParagraph := ⟨70, none⟩

def pOwned : TextParagraph := ⟨71, some 9⟩

/-- Claim C8: `append_paragraph` raises the ownership-conflict error exactly
when the paragraph already has an owning parent (whatever cell is attempted
second); otherwise it sets the paragraph's parent to this cell, appends it
at the end of the cell's paragraph sequence, and returns the cell. -/
theorem claim_C8 (c : Cell) (p : TextParagraph) :
    (Cell.append_paragraph c p = .error .paragraphHasParent ↔
      p.parent.isSome = true) ∧
    (p.parent = none →
      Cell.append_paragraph c p =
        .ok ({ c with paragraphs :=
          c.paragraphs ++ [{ p with parent := some c.id }] },
          { p with parent := some c.id })) := by
  constructor
  · cases hp : p.parent.isSome
    · simp [Cell.append_paragraph, hp]
    · simp [Cell.append_paragraph, hp]
  · intro hnone
    simp [Cell.append_paragraph, hnone]

/-- Witness for C8: an owned paragraph is refused, a fresh one appended. -/
theorem claim_C8_witness :
    Cell.append_paragraph c8cell pOwned = .error .paragraphHasParent ∧
    Cell.append_paragraph c8cell pFree =
      .ok ({ c8cell with paragraphs :=
        c8cell.paragraphs ++ [{ pFree with parent := some c8cell.id }] },
        { pFree with parent := some c8cell.id }) :=
  ⟨(claim_C8 c8cell pOwned).1.mpr rfl, (claim_C8 c8cell pFree).2 rfl⟩

theorem addCells_rect_tid :
    ∀ (cs : List Cell) (t t' : Table), addCells t cs = some t' →
      t'.rect = t.rect ∧ t'.tid = t.tid := by
  intro cs
  induction cs with
  | nil =>
      intro t t' h
      simp only [addCells] at h
      injection h with h
      rw [← h]
      exact ⟨rfl, rfl⟩
  | cons c rest ih =>
      intro t t' h
      simp only [addCells] at h
      split at h
      · rename_i t1 c1 heq
        obtain ⟨e1, e2⟩ := ih t1 t' h
        obtain ⟨_, _, _, htid, hrect, _, _, _⟩ := add_cell_ok heq
        exact ⟨e1.trans hrect, e2.trans htid⟩
      · exact absurd h (by simp)

/-- Claim C5: `ready_to_move` is true iff the occupied area equals the
table's total area, which (for well-formed cells, under the maintained
no-overlap invariant) holds iff every grid coordinate is covered by some
inserted cell; and a freshly constructed table is ready iff
`row_num * col_num = 0`. -/
theorem claim_C5 (tid : Nat) (rn cn : Int) (hrn : 0 ≤ rn) (hcn : 0 ≤ cn)
    (cs : List Cell) (t : Table) (hwf : ∀ c ∈ cs, c.rect.WF)
    (h : addCells (Table.init tid rn cn) cs = some t) :
    (t.ready_to_move = true ↔ t.occupiedArea = t.rect.area) ∧
    (t.ready_to_move = true ↔
      (∀ row col, inGrid t row col = true →
        t.cells.any (fun x => coversB x.rect row col) = true)) ∧
    (Table.init tid rn cn).ready_to_move = decide (rn * cn = 0) := by
  have hC : TableInvC t :=
    tableInvC_addCells cs _ t (tableInvC_init tid rn cn) hwf h
  have hrt : t.rect = ⟨0, 0, cn, rn⟩ := (addCells_rect_tid cs _ t h).1
  refine ⟨by unfold Table.ready_to_move; exact decide_eq_true_iff, ?_, ?_⟩
  · constructor
    · intro hready
      exact ready_full_coverage hC hready
    · intro hcov
      have hcount := hC.2.2
      have hall : coveredCount t = (cellCoords t.rect).length := by
        apply List.countP_eq_length.mpr
        intro rc hrc
        obtain ⟨row, col⟩ := rc
        apply hcov row col
        have := mem_cellCoords.mp hrc
        unfold coversB at this
        unfold inGrid Rect.containsPointB
        simp only [Bool.and_eq_true, decide_eq_true_eq] at this ⊢
        omega
      unfold Table.ready_to_move
      rw [decide_eq_true_iff, hcount, hall, length_cellCoords, hrt]
      unfold Rect.area
      simp only
      push_cast
      rw [Int.toNat_of_nonneg hrn, Int.toNat_of_nonneg hcn]
      ring
  · unfold Table.ready_to_move Table.init Rect.area
    simp only
    rw [decide_eq_decide, Int.mul_comm cn rn]
    exact eq_comm

/-- Witness for C5 at the fully tiled sample table. -/
theorem claim_C5_witness :
    (sampleTable.ready_to_move = true ↔
      sampleTable.occupiedArea = sampleTable.rect.area) ∧
    (sampleTable.ready_to_move = true ↔
      (∀ row col, inGrid sampleTable row col = true →
        sampleTable.cells.any (fun x => coversB x.rect row col) = true)) ∧
    (Table.init 0 2 2).ready_to_move = decide ((2 : Int) * 2 = 0) :=
  claim_C5 0 2 2 (by decide) (by decide) sampleCells sampleTable
    (by decide) rfl

theorem move_spec {t : Table} (hC : TableInvC t)
    (hready : t.ready_to_move = true) {c : Cell}
    (hp : c.parent = some t.tid) (d : Direction) :
    t.move c d = .ok
      (if t.rect.containsPointB (probeOf c d).1 (probeOf c d).2 = true
        then t.cells.get? (t.board (probeOf c d).2 (probeOf c d).1).toNat
        else none) := by
  unfold Table.move
  rw [hready]
  simp only [Bool.not_true, Bool.false_eq_true, if_false, hp, ne_eq,
    not_true_eq_false, if_false, ite_not]
  cases hin : t.rect.containsPointB (probeOf c d).1 (probeOf c d).2
  · simp [hin]
  · obtain ⟨k, hk, hbk, _⟩ := ready_board_valid hC hready hin
    have hget : t.cells.get? ((t.board (probeOf c d).2 (probeOf c d).1).toNat) =
        some (t.cells.get ⟨k, hk⟩) := by
      rw [hbk, Int.toNat_ofNat]
      exact List.get?_eq_get hk
    have hpyget : pyGet? t.cells (t.board (probeOf c d).2 (probeOf c d).1) =
        some (t.cells.get ⟨k, hk⟩) := by
      unfold pyGet?
      rw [hbk, if_pos (by omega), Int.toNat_ofNat]
      exact List.get?_eq_get hk
    simp only [hin, if_true]
    rw [hpyget, hget]

/-- Claim C2: with `ready_to_move()` true and a cell of this table, `move`
computes the probe coordinate (left, top-1) for UP, (left, bottom+1) for
DOWN, (left-1, top) for LEFT, (right+1, top) for RIGHT, and returns the
cell registered at that board coordinate when it lies in the table's
geometry, or none at the boundary. -/
theorem claim_C2 (t : Table) (hR : ReachWF t) (hready : t.ready_to_move = true)
    (c : Cell) (hp : c.parent = some t.tid) (d : Direction) :
    probeOf c .UP = (c.rect.left, c.rect.top - 1) ∧
    probeOf c .DOWN = (c.rect.left, c.rect.bottom + 1) ∧
    probeOf c .LEFT = (c.rect.left - 1, c.rect.top) ∧
    probeOf c .RIGHT = (c.rect.right + 1, c.rect.top) ∧
    t.move c d = .ok
      (if t.rect.containsPointB (probeOf c d).1 (probeOf c d).2 = true
        then t.cells.get? (t.board (probeOf c d).2 (probeOf c d).1).toNat
        else none) :=
  ⟨rfl, rfl, rfl, rfl, move_spec (reachWF_tableInvC hR) hready hp d⟩

/-- Witness for C2: the spec's merge-navigation example, moving DOWN from
the 1x2 merged cell of the sample table reaches the row-1 cell at
column 0. -/
theorem claim_C2_witness :
    sampleTable.move { mCell with parent := some 0 } .DOWN =
      .ok (some { aCell with parent := some 0 }) :=
  ((claim_C2 sampleTable ⟨0, 2, 2, sampleCells, by decide, rfl⟩ rfl
    { mCell with parent := some 0 } rfl .DOWN).2.2.2.2).trans (by rfl)

/-- Claim C7: with `ready_to_move()` true, `move` raises exactly when the
queried cell's parent is not this table, and then raises the
foreign-cell error (before any board lookup). -/
theorem claim_C7 (t : Table) (hR : ReachWF t) (hready : t.ready_to_move = true)
    (c : Cell) (d : Direction) :
    ((∃ e, t.move c d = .error e) ↔ c.parent ≠ some t.tid) ∧
    (c.parent ≠ some t.tid → t.move c d = .error .cellParentNotThisTable) := by
  have hforeign : c.parent ≠ some t.tid →
      t.move c d = .error .cellParentNotThisTable := by
    intro hp
    unfold Table.move
    rw [hready]
    simp [hp]
  constructor
  · constructor
    · rintro ⟨e, he⟩
      intro hp
      rw [move_spec (reachWF_tableInvC hR) hready hp d] at he
      exact absurd he (by simp)
    · intro hp
      exact ⟨_, hforeign hp⟩
  · exact hforeign

/-- Witness for C7: a cell owned by another table is refused by the sample
table. -/
theorem claim_C7_witness :
    ((∃ e, sampleTable.move ⟨5, ⟨0, 1, 1, 1⟩, some 99, []⟩ .UP = .error e) ↔
      (⟨5, ⟨0, 1, 1, 1⟩, some 99, []⟩ : Cell).parent ≠ some sampleTable.tid) ∧
    ((⟨5, ⟨0, 1, 1, 1⟩, some 99, []⟩ : Cell).parent ≠ some sampleTable.tid →
      sampleTable.move ⟨5, ⟨0, 1, 1, 1⟩, some 99, []⟩ .UP =
        .error .cellParentNotThisTable) :=
  claim_C7 sampleTable ⟨0, 2, 2, sampleCells, by decide, rfl⟩ rfl
    ⟨5, ⟨0, 1, 1, 1⟩, some 99, []⟩ .UP

/-- Claim C9: whenever `move` performs its board lookup (table ready, probe
inside the geometry), the board entry is not the unoccupied marker and is a
valid index into the cell sequence, so the Python lookup never falls back
on negative indexing and returns a cell that was inserted into this
table. -/
theorem claim_C9 (t : Table) (hR : ReachWF t) (hready : t.ready_to_move = true)
    (x y : Int) (hin : t.rect.containsPointB x y = true) :
    t.board y x ≠ _UNOCCUPIED_CELL ∧ 0 ≤ t.board y x ∧
    t.board y x < (t.cells.length : Int) ∧
    pyGet? t.cells (t.board y x) = t.cells.get? (t.board y x).toNat ∧
    (∃ r, t.cells.get? (t.board y x).toNat = some r ∧ r ∈ t.cells) := by
  obtain ⟨k, hk, hbk, _⟩ :=
    ready_board_valid (reachWF_tableInvC hR) hready hin
  rw [hbk]
  refine ⟨by unfold _UNOCCUPIED_CELL; omega, by omega, by omega, ?_, ?_⟩
  · unfold pyGet?
    rw [if_pos (by omega)]
  · rw [Int.toNat_ofNat]
    exact ⟨t.cells.get ⟨k, hk⟩, List.get?_eq_get hk, t.cells.get_mem _ _⟩

/-- Witness for C9 at grid point (x, y) = (1, 0) of the sample table. -/
theorem claim_C9_witness :
    sampleTable.board 0 1 ≠ _UNOCCUPIED_CELL ∧ 0 ≤ sampleTable.board 0 1 ∧
    sampleTable.board 0 1 < (sampleTable.cells.length : Int) ∧
    pyGet? sampleTable.cells (sampleTable.board 0 1) =
      sampleTable.cells.get? (sampleTable.board 0 1).toNat ∧
    (∃ r, sampleTable.cells.get? (sampleTable.board 0 1).toNat = some r ∧
      r ∈ sampleTable.cells) :=
  claim_C9 sampleTable ⟨0, 2, 2, sampleCells, by decide, rfl⟩ rfl 1 0 rfl

/-- Claim C10: a successful `move` never returns the queried cell itself:
the probe lies strictly outside the queried cell's rectangle, so the
result is none or a different cell. -/
theorem claim_C10 (t : Table) (hR : ReachWF t) (c : Cell) (d : Direction)
    (r : Option Cell) (h : t.move c d = .ok r) : r ≠ some c := by
  cases hready : t.ready_to_move
  · unfold Table.move at h
    rw [hready] at h
    exact absurd h (by simp)
  · by_cases hp : c.parent = some t.tid
    · have hs := move_spec (reachWF_tableInvC hR) hready hp d
      rw [hs] at h
      injection h with h
      cases hin : t.rect.containsPointB (probeOf c d).1 (probeOf c d).2
      · rw [hin] at h
        simp only [Bool.false_eq_true, if_false] at h
        rw [← h]
        simp
      · obtain ⟨k, hk, hbk, hcov⟩ :=
          ready_board_valid (reachWF_tableInvC hR) hready hin
        rw [hin] at h
        simp only [if_true] at h
        rw [hbk, Int.toNat_ofNat, List.get?_eq_get hk] at h
        rw [← h]
        intro hcontra
        injection hcontra with hcontra
        rw [hcontra] at hcov
        unfold coversB at hcov
        simp only [Bool.and_eq_true, decide_eq_true_eq] at hcov
        cases d <;>
          (unfold probeOf at hcov
           unfold Rect.bottom Rect.right at hcov
           simp only at hcov
           omega)
    · unfold Table.move at h
      rw [hready] at h
      simp only [Bool.not_true, Bool.false_eq_true, if_false] at h
      rw [if_pos (by simp [hp])] at h
      exact absurd h (by simp)

/-- Witness for C10: moving DOWN from the merged sample cell returns the
row-1 cell, not the merged cell itself. -/
theorem claim_C10_witness :
    (some { aCell with parent := some 0 } : Option Cell) ≠
      some { mCell with parent := some 0 } :=
  claim_C10 sampleTable ⟨0, 2, 2, sampleCells, by decide, rfl⟩
    { mCell with parent := some 0 } .DOWN
    (some { aCell with parent := some 0 }) rfl

/-- Row-major order on (row, col) coordinates. -/
def rmLT (a b : Int × Int) : Prop :=
  a.1 < b.1 ∨ (a.1 = b.1 ∧ a.2 < b.2)

theorem find?_split (p : α → Bool) :
    ∀ (l : List α) (b : α), l.find? p = some b →
      ∃ l1 l2, l = l1 ++ b :: l2 ∧ ∀ a ∈ l1, p a = false := by
  intro l
  induction l with
  | nil => intro b h; simp at h
  | cons a l ih =>
      intro b h
      cases hpa : p a
      · rw [List.find?_cons_of_neg _ (by simp [hpa])] at h
        obtain ⟨l1, l2, rfl, hl1⟩ := ih b h
        refine ⟨a :: l1, l2, rfl, ?_⟩
        intro x hx
        rcases List.mem_cons.mp hx with rfl | hx
        · exact hpa
        · exact hl1 x hx
      · rw [List.find?_cons_of_pos _ (by simp [hpa])] at h
        injection h with h
        exact ⟨[], l, by simp [h], by simp⟩

theorem pairwise_intRange (lo hi : Int) :
    (intRange lo hi).Pairwise (· < ·) := by
  unfold intRange
  rw [List.pairwise_map]
  exact (List.pairwise_lt_range _).imp (fun h => by omega)

theorem pairwise_cellCoords (r : Rect) : (cellCoords r).Pairwise rmLT := by
  unfold cellCoords
  have key : ∀ rows : List Int, rows.Pairwise (· < ·) →
      (rows.flatMap (fun row => (intRange r.left r.right).map
        (fun col => (row, col)))).Pairwise rmLT := by
    intro rows
    induction rows with
    | nil => intro _; simp
    | cons a rows ih =>
        intro hp
        rw [List.flatMap_cons, List.pairwise_append]
        refine ⟨?_, ih (List.Pairwise.of_cons hp), ?_⟩
        · rw [List.pairwise_map]
          exact (pairwise_intRange r.left r.right).imp
            (fun h => Or.inr ⟨rfl, h⟩)
        · intro x hx y hy
          obtain ⟨cx, hcx, rfl⟩ := List.mem_map.mp hx
          obtain ⟨row', hrow', hy2⟩ := List.mem_flatMap.mp hy
          obtain ⟨cy, hcy, rfl⟩ := List.mem_map.mp hy2
          exact Or.inl ((List.pairwise_cons.mp hp).1 row' hrow')
  exact key _ (pairwise_intRange _ _)

theorem add_cell_occupied {t : Table} {c : Cell} {row col : Int} {t' : Table}
    {c' : Cell} (h : t.add_cell c = .error (.pointOccupied row col, t', c')) :
    (cellCoords c.rect).find?
      (fun rc => t.board rc.1 rc.2 != _UNOCCUPIED_CELL) = some (row, col) := by
  unfold Table.add_cell at h
  split at h
  · injection h with h
    injection h with h1 h2
    exact absurd h1 (by simp)
  · split at h
    · rename_i row2 col2 hfind
      injection h with h
      injection h with h1 h2
      injection h1 with h1a h1b
      rw [← h1a, ← h1b]
      exact hfind
    · exact absurd h (by simp)

/-- Claim C6: the coordinate named by the overlap error is the first
occupied coordinate encountered scanning the inserted cell's covered
region in row-major order from its top-left corner. -/
theorem claim_C6 (t : Table) (c : Cell) (row col : Int) (t' : Table) (c' : Cell)
    (h : t.add_cell c = .error (.pointOccupied row col, t', c')) :
    coversB c.rect row col = true ∧
    t.board row col ≠ _UNOCCUPIED_CELL ∧
    (∀ r2 c2, coversB c.rect r2 c2 = true → rmLT (r2, c2) (row, col) →
      t.board r2 c2 = _UNOCCUPIED_CELL) := by
  have hfind := add_cell_occupied h
  have hmem : (row, col) ∈ cellCoords c.rect :=
    List.mem_of_find?_eq_some hfind
  have hpred := List.find?_some hfind
  simp only [bne_iff_ne, ne_eq, decide_eq_true_eq] at hpred
  refine ⟨mem_cellCoords.mp hmem, by simpa using hpred, ?_⟩
  obtain ⟨l1, l2, hdecomp, hpre⟩ := find?_split _ _ _ hfind
  intro r2 c2 hcov hlt
  have hmem2 : (r2, c2) ∈ cellCoords c.rect := mem_cellCoords.mpr hcov
  rw [hdecomp] at hmem2
  rcases List.mem_append.mp hmem2 with h1 | h2
  · have := hpre _ h1
    simp only [bne_eq_false_iff_eq] at this
    exact this
  · rcases List.mem_cons.mp h2 with heq | h3
    · injection heq with e1 e2
      unfold rmLT at hlt
      simp only at hlt
      omega
    · have hpw := pairwise_cellCoords c.rect
      rw [hdecomp] at hpw
      have hafter :=
        (List.pairwise_cons.mp (List.pairwise_append.mp hpw).2.1).1 _ h3
      unfold rmLT at hlt hafter
      simp only at hlt hafter
      omega

/-- The 2x2 table holding one unit cell at (row 0, column 1), used by the
C6 witness. -/
def c6table : Table :=
  ((Table.add_cell (Table.init 6 2 2) ⟨11, ⟨1, 0, 1, 1⟩, none, []⟩).toOption.map
    Prod.fst).getD (Table.init 0 0 0)

/-- A 2x2 cell overlapping `c6table`'s occupied coordinate. -/
def c6new : Cell := ⟨12, ⟨0, 0, 2, 2⟩, none, []⟩

/-- Witness for C6: inserting the 2x2 cell reports (0, 1), the first
occupied coordinate in row-major order, while the earlier coordinate
(0, 0) is unoccupied. -/
theorem claim_C6_witness :
    coversB c6new.rect 0 1 = true ∧
    c6table.board 0 1 ≠ _UNOCCUPIED_CELL ∧
    (∀ r2 c2, coversB c6new.rect r2 c2 = true → rmLT (r2, c2) (0, 1) →
      c6table.board r2 c2 = _UNOCCUPIED_CELL) :=
  claim_C6 c6table c6new 0 1 c6table c6new rfl
